import Mathlib

/-!
A verification development for the SPIR-V serialization utility generator
(`SPIRVUtilsGen.cpp`).  The generator compiles instruction schemas into
encode/decode functions, dispatch routers, and bit-flag enum string codecs.
We embed (a) the schema data model, (b) the runtime semantics of the
*generated* functions, and (c) the generator driver with its
generation-time validation, and prove the spec's claims about them.

Machine words are modelled as `Nat` (all generated arithmetic is on
`uint32_t` values and never overflows in the modelled operations: the only
bit operations are and/or/and-not, which never leave the 32-bit range).
-/

namespace SPIRVGen

/-! ## Schema data model

Mirrors the fields the generator reads off a `Record`/`Operator`:
`hasOpcode`, `autogenSerialization`, the opcode tag (`spirvOpName`),
the number of results, and the argument list, where each argument is
either a value operand (`NamedTypeConstraint`, possibly variadic) or a
named attribute with an attribute-class kind. -/

/-- Attribute classes distinguished by the generator:
`I32ArrayAttr`, enum-backed attributes (`isEnumAttr()`), `I32Attr`,
and everything else (which triggers a generation-time fatal error). -/
inductive AttrKind where
  | i32Array
  | enumBacked
  | i32
  | unsupported (defName : String)
deriving DecidableEq, Repr

/-- One argument of an instruction schema: a value-reference operand
(with its `Variadic<..>` flag) or a named attribute. -/
inductive SArg where
  | valueRef (variadic : Bool)
  | attr (kind : AttrKind) (optional : Bool) (name : String)
deriving DecidableEq, Repr

/-- One instruction schema (`SPV_Op` record as read by the generator). -/
structure Schema where
  name : String
  hasOpcode : Bool
  autogenSerialization : Bool
  opcode : Nat
  numResults : Nat
  args : List SArg
deriving DecidableEq, Repr

/-- Runtime attribute values carried by nodes: scalar 32-bit integers
(also used for enum-backed attributes) and integer arrays. -/
inductive AttrValue where
  | int (n : Nat)
  | arr (ns : List Nat)
deriving DecidableEq, Repr

/-! ## Encode side: semantics of the generated `Serializer::processOp<Op>` -/

/-- The instruction node being serialized: its result value (an opaque SSA
value, modelled by a numeric token), its result type (opaque type token),
the operand groups returned by `getODSOperands(i)`, and the attribute
dictionary (`getAttrs()` order, `getAttr` lookup). -/
structure SNode where
  resultValue : Nat
  resultType : Nat
  operandGroups : List (List Nat)
  attrsList : List (String × AttrValue)
deriving DecidableEq, Repr

/-- `op.getAttr(name)`: first binding of `name` in the dictionary. -/
def SNode.getAttr (node : SNode) (name : String) : Option AttrValue :=
  (node.attrsList.find? (fun a => a.1 == name)).map (fun a => a.2)

/-- Opaque services used by the generated encoder: `processType` (type →
type <id>, failure = unresolved type) and `processDecoration`
(success/failure of emitting one OpDecorate record). -/
structure EncodeCtx where
  processType : Nat → Option Nat
  processDecoration : Nat → String × AttrValue → Bool

/-- Serializer state: the fresh-<id> counter (`getNextID`) and the
value→<id> map (`valueIDMap`), modelled as an association list where an
assignment prepends a binding. -/
structure EncodeState where
  nextID : Nat
  valueIDMap : List (Nat × Nat)
deriving DecidableEq, Repr

/-- Errors that make the generated encoder `return failure()`. -/
inductive EncodeError where
  | unresolvedType
  | unsupportedDecoration (name : String)
deriving DecidableEq, Repr

/-- Diagnostics the generated encoder emits *without* returning failure.
The use-before-def branch calls `emitError` but falls through. -/
inductive EncodeDiag where
  | useBeforeDef (operandNum : Nat)
deriving DecidableEq, Repr

/-- One value-operand group: `for (auto arg : op.getODSOperands(n))` with
`findValueID`; a missing id emits a use-before-def diagnostic and pushes
the null id 0 (the `DenseMap` lookup default) — it does not fail. -/
def serializeGroup (st : EncodeState) (operandNum : Nat) (group : List Nat) :
    List Nat × List EncodeDiag :=
  group.foldl
    (fun acc v =>
      match st.valueIDMap.lookup v with
      | some id => (acc.1 ++ [id], acc.2)
      | none => (acc.1 ++ [0], acc.2 ++ [.useBeforeDef operandNum]))
    ([], [])

/-- Words contributed by one attribute (generated by
`emitAttributeSerialization`): array attributes push one word per
element, enum-backed and `I32Attr` attributes push one word; an absent
attribute pushes nothing.  A shape mismatch would be a failed `cast<>` in
the generated C++ (undefined for ill-typed nodes); we model it as pushing
nothing.  Unsupported kinds never reach runtime (generation aborts). -/
def encodeAttrWords : AttrKind → Option AttrValue → List Nat
  | _, none => []
  | .i32Array, some (.arr ns) => ns
  | .i32Array, some (.int _) => []
  | .enumBacked, some (.int n) => [n]
  | .enumBacked, some (.arr _) => []
  | .i32, some (.int n) => [n]
  | .i32, some (.arr _) => []
  | .unsupported _, some _ => []

/-- The generated argument loop: value operands append looked-up ids (in
declaration order, tracking `operandNum`), attributes append their words
and are recorded in `elidedAttrs`. -/
def serializeArgs (st : EncodeState) (node : SNode) :
    List SArg → Nat → List Nat → List String → List EncodeDiag →
    List Nat × List String × List EncodeDiag
  | [], _, operands, elided, diags => (operands, elided, diags)
  | .valueRef _ :: rest, operandNum, operands, elided, diags =>
    let r := serializeGroup st operandNum (node.operandGroups.getD operandNum [])
    serializeArgs st node rest (operandNum + 1) (operands ++ r.1) elided (diags ++ r.2)
  | .attr k _ name :: rest, operandNum, operands, elided, diags =>
    serializeArgs st node rest operandNum
      (operands ++ encodeAttrWords k (node.getAttr name)) (elided ++ [name]) diags

/-- The generated decoration pass: every node attribute not elided in the
argument loop becomes an OpDecorate record for the result id; a failing
`processDecoration` makes the encoder return failure. -/
def processDecorations (ctx : EncodeCtx) (resultID : Nat) (elided : List String) :
    List (String × AttrValue) → Except EncodeError Unit
  | [] => .ok ()
  | (name, v) :: rest =>
    if elided.contains name then processDecorations ctx resultID elided rest
    else if ctx.processDecoration resultID (name, v) then
      processDecorations ctx resultID elided rest
    else .error (.unsupportedDecoration name)

/-- Successful output of the generated encoder: the `(opcode, operands)`
pair passed to `encodeInstructionInto`, the emitted (non-fatal)
diagnostics, and the updated serializer state. -/
structure EncodeOut where
  opcode : Nat
  words : List Nat
  diags : List EncodeDiag
  finalState : EncodeState
deriving DecidableEq, Repr

/-- Semantics of the generated `Serializer::processOp<Op>` for a schema:
result phase (type <id>, fresh result <id>, value→id registration), then
the argument loop, then `encodeInstructionInto`, then the decoration
pass.  (On a decoration failure the source has already appended the
instruction words before failing; the model returns only the error.) -/
def serializerProcessOp (s : Schema) (ctx : EncodeCtx) (st : EncodeState)
    (node : SNode) : Except EncodeError EncodeOut :=
  let resPhase : Except EncodeError (List Nat × Option Nat × EncodeState) :=
    if s.numResults = 1 then
      match ctx.processType node.resultType with
      | none => .error .unresolvedType
      | some tid =>
        .ok ([tid, st.nextID], some st.nextID,
          { nextID := st.nextID + 1,
            valueIDMap := (node.resultValue, st.nextID) :: st.valueIDMap })
    else .ok ([], none, st)
  match resPhase with
  | .error e => .error e
  | .ok (resWords, resultID?, st1) =>
    let r := serializeArgs st1 node s.args 0 resWords [] []
    match resultID? with
    | some rid =>
      match processDecorations ctx rid r.2.1 node.attrsList with
      | .error e => .error e
      | .ok _ => .ok ⟨s.opcode, r.1, r.2.2, st1⟩
    | none => .ok ⟨s.opcode, r.1, r.2.2, st1⟩

/-! ## Decode side: semantics of the generated `Deserializer::processOp<Op>` -/

/-- Errors raised by the generated decoder (each `emitError` followed by a
`return`): truncated stream (missing result type/result id word), unknown
type <id>, unknown value <id>, and trailing data ("found more operands
than expected", reporting consumed vs total word counts). -/
inductive DecodeError where
  | missingResultType
  | missingResultId
  | unknownType (word : Nat)
  | unknownValueId (word : Nat)
  | trailingData (consumed total : Nat)
deriving DecidableEq, Repr

/-- Opaque services used by the generated decoder: `getType`, `getValue`,
and the decoration table (`decorations[valueID].getAttrs()`). -/
structure DecodeCtx where
  getType : Nat → Option Nat
  getValue : Nat → Option Nat
  decorations : Nat → Option (List (String × AttrValue))

/-- The node built by `opBuilder.create<Op>(unknownLoc, resultTypes,
operands, attributes)`. -/
structure DNode where
  resultTypes : List Nat
  operands : List Nat
  attributes : List (String × AttrValue)
deriving DecidableEq, Repr

/-- Decoder output: the created node and, for one-result schemas, the
result <id> bound in `valueMap`. -/
structure DecodeOut where
  node : DNode
  boundResultId : Option Nat
deriving DecidableEq, Repr

/-- Result phase of the generated decoder: for a one-result schema,
require and resolve the result-type word, then require the result-id
word; returns the result types, the pending value id, and the cursor. -/
def deserializeResult (s : Schema) (ctx : DecodeCtx) (words : List Nat) :
    Except DecodeError (List Nat × Option Nat × Nat) :=
  if s.numResults = 1 then
    match words.get? 0 with
    | none => .error .missingResultType
    | some w0 =>
      match ctx.getType w0 with
      | none => .error (.unknownType w0)
      | some ty =>
        match words.get? 1 with
        | none => .error .missingResultId
        | some w1 => .ok ([ty], some w1, 2)
  else .ok ([], none, 0)

/-- The generated variadic-operand loop: `for (; wordIndex <
words.size(); ++wordIndex)` resolving each word via `getValue`.  The loop
walks the suffix of the word list starting at the cursor; `remaining` is
that suffix. -/
def readVariadicLoop (ctx : DecodeCtx) : List Nat → Nat →
    Except DecodeError (List Nat × Nat)
  | [], cursor => .ok ([], cursor)
  | w :: rest, cursor =>
    match ctx.getValue w with
    | none => .error (.unknownValueId w)
    | some v =>
      match readVariadicLoop ctx rest (cursor + 1) with
      | .error e => .error e
      | .ok (vs, c) => .ok (v :: vs, c)

/-- The variadic loop, started at the cursor. -/
def readVariadic (ctx : DecodeCtx) (words : List Nat) (cursor : Nat) :
    Except DecodeError (List Nat × Nat) :=
  readVariadicLoop ctx (words.drop cursor) cursor

/-- The generated slot loop of the decoder: non-variadic value operands
consume one word if available (absent otherwise), variadic operands
consume all remaining words, scalar/enum attributes consume one word if
available, array attributes consume all remaining words; each attribute
group is guarded by `if (wordIndex < words.size())`. -/
def deserializeArgs (ctx : DecodeCtx) (words : List Nat) :
    List SArg → Nat → List Nat → List (String × AttrValue) →
    Except DecodeError (Nat × List Nat × List (String × AttrValue))
  | [], cursor, operands, attrs => .ok (cursor, operands, attrs)
  | .valueRef true :: rest, cursor, operands, attrs =>
    match readVariadic ctx words cursor with
    | .error e => .error e
    | .ok (vs, c) => deserializeArgs ctx words rest c (operands ++ vs) attrs
  | .valueRef false :: rest, cursor, operands, attrs =>
    if h : cursor < words.length then
      match ctx.getValue (words.get ⟨cursor, h⟩) with
      | none => .error (.unknownValueId (words.get ⟨cursor, h⟩))
      | some v => deserializeArgs ctx words rest (cursor + 1) (operands ++ [v]) attrs
    else deserializeArgs ctx words rest cursor operands attrs
  | .attr k _ name :: rest, cursor, operands, attrs =>
    if h : cursor < words.length then
      match k with
      | .i32Array =>
        deserializeArgs ctx words rest words.length operands
          (attrs ++ [(name, .arr (words.drop cursor))])
      | .enumBacked =>
        deserializeArgs ctx words rest (cursor + 1) operands
          (attrs ++ [(name, .int (words.get ⟨cursor, h⟩))])
      | .i32 =>
        deserializeArgs ctx words rest (cursor + 1) operands
          (attrs ++ [(name, .int (words.get ⟨cursor, h⟩))])
      | .unsupported _ => deserializeArgs ctx words rest cursor operands attrs
    else deserializeArgs ctx words rest cursor operands attrs

/-- Semantics of the generated `Deserializer::processOp<Op>`: result
phase, slot loop, exact-consumption check (`wordIndex != words.size()` →
trailing-data error), decoration merge for the pending result id, node
construction, and `valueMap` registration of the result. -/
def deserializerProcessOp (s : Schema) (ctx : DecodeCtx) (words : List Nat) :
    Except DecodeError DecodeOut :=
  match deserializeResult s ctx words with
  | .error e => .error e
  | .ok (resultTypes, valueID?, cursor) =>
    match deserializeArgs ctx words s.args cursor [] [] with
    | .error e => .error e
    | .ok (cursor2, operands, attrs) =>
      if cursor2 ≠ words.length then .error (.trailingData cursor2 words.length)
      else
        let attrs2 :=
          match valueID? with
          | some vid =>
            match ctx.decorations vid with
            | some extra => attrs ++ extra
            | none => attrs
          | none => attrs
        .ok ⟨⟨resultTypes, operands, attrs2⟩, valueID?⟩

/-! ## Generator driver, validation, and dispatch routers -/

/-- Generation-time fatal errors (`PrintFatalError`): more than one
result (serializer wording, deserializer wording), an unhandled attribute
type (serializer wording, deserializer wording), and a `Variadic<..>`
argument that is not the last argument. -/
inductive GenError where
  | serResultArity (opName : String)
  | serUnsupportedAttr (opName defName : String)
  | deserResultArity (opName : String)
  | deserUnsupportedAttr (opName defName : String)
  | deserVariadicNotLast (opName : String)
deriving DecidableEq, Repr

/-- Attribute-kind validation performed while emitting the serialization
function's argument loop: the first unsupported attribute class aborts. -/
def checkSerAttrKinds (opName : String) : List SArg → Except GenError Unit
  | [] => .ok ()
  | .valueRef _ :: rest => checkSerAttrKinds opName rest
  | .attr k _ _ :: rest =>
    match k with
    | .unsupported d => .error (.serUnsupportedAttr opName d)
    | _ => checkSerAttrKinds opName rest

/-- Validation performed while emitting the deserialization function's
slot loop: a variadic operand that is not the final argument aborts, and
so does the first unsupported attribute class. -/
def checkDeserArgs (opName : String) : List SArg → Except GenError Unit
  | [] => .ok ()
  | .valueRef true :: rest =>
    if rest.isEmpty then .ok () else .error (.deserVariadicNotLast opName)
  | .valueRef false :: rest => checkDeserArgs opName rest
  | .attr k _ _ :: rest =>
    match k with
    | .unsupported d => .error (.deserUnsupportedAttr opName d)
    | _ => checkDeserArgs opName rest

/-- `emitSerializationFunction`: returns whether a function was emitted
(`false` when `autogenSerialization` is unset), aborting on a result
arity above one or an unsupported attribute kind. -/
def emitSerializationFunction (s : Schema) : Except GenError Bool :=
  if s.autogenSerialization = false then .ok false
  else if 2 ≤ s.numResults then .error (.serResultArity s.name)
  else
    match checkSerAttrKinds s.name s.args with
    | .error e => .error e
    | .ok _ => .ok true

/-- `emitDeserializationFunction`: returns whether a function was emitted,
aborting on a result arity above one, a non-final variadic argument, or
an unsupported attribute kind. -/
def emitDeserializationFunction (s : Schema) : Except GenError Bool :=
  if s.autogenSerialization = false then .ok false
  else if 2 ≤ s.numResults then .error (.deserResultArity s.name)
  else
    match checkDeserArgs s.name s.args with
    | .error e => .error e
    | .ok _ => .ok true

/-- The generated artifacts (the abstract code sink, structured): the
`getOpcode` specializations, the generated per-schema encode and decode
functions, the encode dispatch chain (`isa<Op>` tests in emission order),
and the decode dispatch switch (opcode → handler cases in order). -/
structure GenOutput where
  opcodeFns : List String
  serFns : List String
  serDispatch : List String
  deserFns : List String
  deserDispatch : List (Nat × String)
deriving DecidableEq, Repr

/-- `emitSerializationFns`: iterates the schema set once, skipping
schemas without `hasOpcode`; for those with it, emits the `getOpcode`
function, the (possibly skipped) serialization function, an encode
dispatch entry, the (possibly skipped) deserialization function, and a
decode dispatch entry.  Dispatch entries are emitted regardless of
`autogenSerialization`.  The first generation-time error aborts. -/
def emitSerializationFns : List Schema → Except GenError GenOutput
  | [] => .ok ⟨[], [], [], [], []⟩
  | s :: rest =>
    if s.hasOpcode = false then emitSerializationFns rest
    else
      match emitSerializationFunction s with
      | .error e => .error e
      | .ok serEmitted =>
        match emitDeserializationFunction s with
        | .error e => .error e
        | .ok deserEmitted =>
          match emitSerializationFns rest with
          | .error e => .error e
          | .ok out =>
            .ok ⟨s.name :: out.opcodeFns,
              (if serEmitted then [s.name] else []) ++ out.serFns,
              s.name :: out.serDispatch,
              (if deserEmitted then [s.name] else []) ++ out.deserFns,
              (s.opcode, s.name) :: out.deserDispatch⟩

/-- Outcome of the generated decode dispatch switch: an autogenerated
handler runs, or the case routes to a hand-written `processOp`
specialization (emitted for `hasOpcode` schemas that opted out of
autogeneration — no function is generated here), or the default branch
reports "unhandled deserialization" carrying the opcode. -/
inductive DeserDispatchOutcome where
  | run (r : Except DecodeError DecodeOut)
  | manualHandler (name : String)
  | unhandled (opcode : Nat)
deriving Repr

/-- Semantics of the generated
`Deserializer::dispatchToAutogenDeserialization`: the switch has one case
per `hasOpcode` schema (first matching case fires); the default branch
fails with the unhandled-opcode error. -/
def dispatchToAutogenDeserialization (schemas : List Schema) (ctx : DecodeCtx)
    (opcode : Nat) (words : List Nat) : DeserDispatchOutcome :=
  match (schemas.filter (fun s => s.hasOpcode)).find? (fun s => s.opcode == opcode) with
  | some s =>
    if s.autogenSerialization then .run (deserializerProcessOp s ctx words)
    else .manualHandler s.name
  | none => .unhandled opcode

/-! ## Bit-flag enum codecs

Semantics of the functions generated by `emitSymToStrFnForBitEnum`,
`emitStrToSymFnForBitEnum` and `emitUnderlyingToSymFnForBitEnum`.
Strings are modelled as `List Char`; a bit-flag enum symbol is modelled
by its underlying integer value (value 0 is the reserved `None`). -/

/-- One enumerant: its symbol name and its underlying value. -/
structure EnumCase where
  symbol : List Char
  value : Nat
deriving DecidableEq, Repr

/-- A bit-flag enum schema: the ordered case list and the separator
string used to join/split symbol names. -/
structure BitEnum where
  cases : List EnumCase
  separator : List Char
deriving DecidableEq, Repr

/-- The reserved name for the all-bits-unset value. -/
def sNone : List Char := ['N', 'o', 'n', 'e']

/-- `llvm::join(strs, sep)`. -/
def joinSep (sep : List Char) : List (List Char) → List Char
  | [] => []
  | [s] => s
  | s :: rest => s ++ sep ++ joinSep sep rest

/-- `llvm::StringRef::split(result, sep)`: split on each occurrence of
the separator (first occurrence first, keeping empty pieces).  An empty
separator never matches (the generated code is never instantiated with
one).  Each step consumes at least one character, so the input length
serves as fuel for the recursion. -/
def splitStrGo (sep : List Char) : Nat → List Char → List (List Char)
  | _, [] => [[]]
  | 0, s => [s]
  | fuel + 1, a :: rest =>
    if sep ≠ [] ∧ sep.isPrefixOf (a :: rest) then
      [] :: splitStrGo sep fuel (rest.drop (sep.length - 1))
    else
      match splitStrGo sep fuel rest with
      | [] => [[a]]
      | t :: ts => (a :: t) :: ts

/-- `llvm::StringRef::split(result, sep)` on a string. -/
def splitStr (sep s : List Char) : List (List Char) :=
  splitStrGo sep s.length s

/-- The all-ones `uint32_t` value. -/
def mask32 : Nat := 2 ^ 32 - 1

/-- `val & ~c` on `uint32_t` operands: the complement `~c` flips the 32
bits of `c`, i.e. it is `mask32 ^^^ c` for `c < 2^32`. -/
def clear32 (val c : Nat) : Nat := val &&& (mask32 ^^^ c)

/-- One step of the generated `stringify` loop: for a case with nonzero
value, if its bits intersect the working value, push its symbol and clear
those bits (`val &= ~case`).  (The generator only emits this test for
nonzero-valued cases; a zero value never intersects anyway.) -/
def stringifyStep (acc : List (List Char) × Nat) (c : EnumCase) :
    List (List Char) × Nat :=
  if c.value ≠ 0 ∧ c.value &&& acc.2 ≠ 0 then
    (acc.1 ++ [c.symbol], clear32 acc.2 c.value)
  else acc

/-- Semantics of the generated symbol-to-string function: 0 maps to
"None"; otherwise collect intersecting case names in declaration order,
clearing their bits; leftover (unknown) bits yield the empty-string
failure sentinel; otherwise join the names with the separator. -/
def stringifyBitEnum (e : BitEnum) (symbol : Nat) : List Char :=
  if symbol = 0 then sNone
  else
    let r := e.cases.foldl stringifyStep ([], symbol)
    if r.2 ≠ 0 then [] else joinSep e.separator r.1

/-- The generated `llvm::StringSwitch` over the nonzero-valued case
names: first matching case wins; no match is a parse failure. -/
def lookupCaseValue : List EnumCase → List Char → Option Nat
  | [], _ => none
  | c :: rest, token =>
    if c.value ≠ 0 ∧ c.symbol = token then some c.value
    else lookupCaseValue rest token

/-- The generated token loop: OR each token's case value into the
accumulator; an unmatched token fails the whole parse. -/
def symbolizeFold (cs : List EnumCase) : Nat → List (List Char) → Option Nat
  | val, [] => some val
  | val, t :: ts =>
    match lookupCaseValue cs t with
    | some bit => symbolizeFold cs (val ||| bit) ts
    | none => none

/-- Semantics of the generated string-to-symbol function: "None" maps to
value 0; otherwise split on the separator and OR the matched case values
together, failing if any token matches no case. -/
def symbolizeBitEnum (e : BitEnum) (str : List Char) : Option Nat :=
  if str = sNone then some 0
  else symbolizeFold e.cases 0 (splitStr e.separator str)

/-- The union (`v1 | v2 | ...`) of the nonzero case values, as emitted by
`emitUnderlyingToSymFnForBitEnum`. -/
def caseMask (cs : List EnumCase) : Nat :=
  ((cs.filter (fun c => c.value ≠ 0)).map EnumCase.value).foldl (· ||| ·) 0

/-- Semantics of the generated underlying-to-symbol function: 0 maps to
`None`; a value with any bit outside the union of case values
(`value & ~(v1 | ...)`) fails; otherwise the value maps to itself. -/
def symbolizeFromUnderlying (e : BitEnum) (value : Nat) : Option Nat :=
  if value = 0 then some 0
  else if clear32 value (caseMask e.cases) ≠ 0 then none
  else some value

/-! ## Derived predicates used to state the generation-time claims -/

/-- Whether an argument list contains an attribute of an unsupported
kind (neither integer array, enum-backed, nor scalar integer). -/
def hasUnsupportedAttr : List SArg → Bool
  | [] => false
  | .valueRef _ :: rest => hasUnsupportedAttr rest
  | .attr (.unsupported _) _ _ :: _ => true
  | .attr _ _ _ :: rest => hasUnsupportedAttr rest

/-- Whether an argument list contains a variadic value-reference slot
that is not the final slot. -/
def hasNonFinalVariadic : List SArg → Bool
  | [] => false
  | .valueRef true :: rest => !rest.isEmpty
  | _ :: rest => hasNonFinalVariadic rest

/-! ## Helper notions for the bit-flag enum proofs -/

/-- The cases the generated `stringify` loop pushes for an input value:
the nonzero-valued cases whose bits intersect the value. -/
def pushedCases (cs : List EnumCase) (v : Nat) : List EnumCase :=
  cs.filter (fun c => decide (c.value ≠ 0 ∧ c.value &&& v ≠ 0))

/-- The union of the values of a list of cases. -/
def orValues (cs : List EnumCase) : Nat :=
  cs.foldr (fun c m => c.value ||| m) 0

/-! ## Concrete instances used by the claims -/

/-- The concrete-scenario schema: one result, one non-variadic value
operand, one scalar integer attribute "value". -/
def schemaOne : Schema :=
  ⟨"TestOp", true, true, 57, 1, [.valueRef false, .attr .i32 false "value"]⟩

/-- Encode services for the scenario: the node's result type resolves to
type <id> 3, and decorations succeed. -/
def encCtxOne : EncodeCtx := ⟨fun t => if t = 0 then some 3 else none, fun _ _ => true⟩

/-- Encoder state for the scenario: the next fresh <id> is 8, and the
operand value (token 100) already has <id> 7. -/
def encStOne : EncodeState := ⟨8, [(100, 7)]⟩

/-- The node being encoded: its operand resolves to <id> 7 and its
"value" attribute is 42. -/
def nodeOne : SNode := ⟨200, 0, [[100]], [("value", .int 42)]⟩

/-- Decode services for the scenario: type <id> 3 and value <id> 7
resolve; there are no decorations. -/
def decCtxOne : DecodeCtx :=
  ⟨fun w => if w = 3 then some 30 else none,
   fun w => if w = 7 then some 70 else none,
   fun _ => none⟩

/-- A zero-result schema with one non-variadic value operand. -/
def schemaNoRes : Schema := ⟨"UseOp", true, true, 7, 0, [.valueRef false]⟩

/-- Encode services where nothing resolves. -/
def encCtxNoRes : EncodeCtx := ⟨fun _ => none, fun _ _ => true⟩

/-- A node whose operand value (token 55) has no assigned <id>. -/
def nodeNoRes : SNode := ⟨0, 0, [[55]], []⟩

/-- A schema with `hasOpcode` set but `autogenSerialization` unset. -/
def schemaManual : Schema := ⟨"ManualOp", true, false, 5, 0, []⟩

/-- A two-result schema with `autogenSerialization` unset. -/
def schemaBadArity : Schema := ⟨"BadOp", true, false, 9, 2, []⟩

/-- A two-result schema with `autogenSerialization` set. -/
def schemaBadAuto : Schema := ⟨"BadAutoOp", true, true, 9, 2, []⟩

/-- Decode services where nothing resolves. -/
def decCtxEmpty : DecodeCtx := ⟨fun _ => none, fun _ => none, fun _ => none⟩

/-- A bit-flag enum with a single case whose value spans two bits. -/
def enumOverlap : BitEnum := ⟨[⟨['A'], 3⟩], ['|']⟩

/-- The concrete bit-flag enum `{Read=1, Write=2, Execute=4}` with
separator `"|"`. -/
def enumRWX : BitEnum :=
  ⟨[⟨"Read".toList, 1⟩, ⟨"Write".toList, 2⟩, ⟨"Execute".toList, 4⟩], ['|']⟩

/-! ## Claim theorems: concrete scenario and decoder error handling -/

/-- Claim C1: for the schema with one result, one non-variadic value
operand and one scalar integer attribute, encoding the node whose operand
resolves to <id> 7 and whose attribute is 42, with the result type
resolving to type <id> 3 and 8 the freshly allocated result <id>,
produces the words `[3, 8, 7, 42]`; and decoding those same four words
(with lookups resolving 3 and 7) reconstructs the equivalent node: one
result type, one operand resolving as <id> 7 did, and the attribute
"value" = 42. -/
theorem c1_concrete_encode_decode :
    serializerProcessOp schemaOne encCtxOne encStOne nodeOne =
      .ok ⟨57, [3, 8, 7, 42], [], ⟨9, [(200, 8), (100, 7)]⟩⟩ ∧
    deserializerProcessOp schemaOne decCtxOne [3, 8, 7, 42] =
      .ok ⟨⟨[30], [70], [("value", .int 42)]⟩, some 8⟩ :=
  ⟨rfl, rfl⟩

/-- Claim C2: for every schema, the generated decoder consumes the word
list exactly: (1) if the result phase and the slot loop succeed leaving
the cursor different from the word count, decoding fails with the
trailing-data error reporting consumed vs total counts; (2) for a
one-result schema, decoding the empty word list fails with the
missing-result-type error; (3) for a one-result schema whose type word
resolves, decoding a one-word list fails with the missing-result-id
error. -/
theorem c2_exact_consumption (s : Schema) (ctx : DecodeCtx) :
    (∀ (words tys : List Nat) (vid? : Option Nat) (c c2 : Nat) (ops : List Nat)
      (attrs : List (String × AttrValue)),
      deserializeResult s ctx words = .ok (tys, vid?, c) →
      deserializeArgs ctx words s.args c [] [] = .ok (c2, ops, attrs) →
      c2 ≠ words.length →
      deserializerProcessOp s ctx words = .error (.trailingData c2 words.length)) ∧
    (s.numResults = 1 →
      deserializerProcessOp s ctx [] = .error .missingResultType) ∧
    (∀ w ty, s.numResults = 1 → ctx.getType w = some ty →
      deserializerProcessOp s ctx [w] = .error .missingResultId) := by
  refine ⟨?_, ?_, ?_⟩
  · intro words tys vid? c c2 ops attrs h1 h2 h3
    simp [deserializerProcessOp, h1, h2, h3]
  · intro h
    simp [deserializerProcessOp, deserializeResult, h]
  · intro w ty h hty
    simp [deserializerProcessOp, deserializeResult, h, hty]

/-- Witness for C2: the scenario schema with a fifth word appended fails
with the trailing-data error 4-of-5. -/
theorem c2_witness :
    deserializerProcessOp schemaOne decCtxOne [3, 8, 7, 42, 9] =
      .error (.trailingData 4 5) :=
  (c2_exact_consumption schemaOne decCtxOne).1 [3, 8, 7, 42, 9] [30] (some 8) 2 4
    [70] [("value", .int 42)] rfl rfl (by decide)

/-- Claim C3 (code bug): on a node whose referenced operand value has no
assigned <id>, the generated encoder emits a use-before-def diagnostic
but does not return failure: it appends the null <id> 0 to the operand
words and returns success.  (The generated code calls `emitError` inside
`if (!argID)` without `return failure()`.) -/
theorem c3_use_before_def_not_failure :
    serializerProcessOp schemaNoRes encCtxNoRes ⟨1, []⟩ nodeNoRes =
      .ok ⟨7, [0], [.useBeforeDef 0], ⟨1, []⟩⟩ :=
  rfl

/-! ## Claim theorems: dispatch routers and generation-time validation -/

/-- Counterexample to claim C4: a schema with `hasOpcode` set but
`autogenSerialization` unset appears in *both* routers (with no generated
per-schema functions), contradicting "appears in neither router". -/
theorem c4_counterexample :
    emitSerializationFns [schemaManual] =
      .ok ⟨["ManualOp"], [], ["ManualOp"], [], [(5, "ManualOp")]⟩ ∧
    schemaManual.hasOpcode = true ∧ schemaManual.autogenSerialization = false :=
  ⟨rfl, rfl, rfl⟩

/-- Amended claim C4: the two routers contain an entry exactly for each
schema with `hasOpcode` set, in declaration order, regardless of
`autogenSerialization` (entries of opted-out schemas route to
hand-written functions). -/
theorem c4_routers_cover_hasOpcode (schemas : List Schema) (out : GenOutput)
    (h : emitSerializationFns schemas = .ok out) :
    out.serDispatch = (schemas.filter (fun s => s.hasOpcode)).map Schema.name ∧
    out.deserDispatch =
      (schemas.filter (fun s => s.hasOpcode)).map (fun s => (s.opcode, s.name)) := by
  induction schemas generalizing out with
  | nil =>
    simp only [emitSerializationFns] at h
    cases h
    exact ⟨rfl, rfl⟩
  | cons s rest ih =>
    simp only [emitSerializationFns] at h
    by_cases hop : s.hasOpcode = false
    · rw [if_pos hop] at h
      have := ih out h
      simp [List.filter_cons, hop, this.1, this.2]
    · rw [if_neg hop] at h
      have hop' : s.hasOpcode = true := by
        cases hcase : s.hasOpcode
        · exact absurd hcase hop
        · rfl
      cases hse : emitSerializationFunction s with
      | error e => rw [hse] at h; cases h
      | ok serEmitted =>
        rw [hse] at h
        cases hde : emitDeserializationFunction s with
        | error e => rw [hde] at h; cases h
        | ok deserEmitted =>
          rw [hde] at h
          cases hrest : emitSerializationFns rest with
          | error e => rw [hrest] at h; cases h
          | ok out2 =>
            rw [hrest] at h
            cases h
            have := ih out2 hrest
            simp [List.filter_cons, hop', this.1, this.2]

/-- Witness for C4 (amended): on a two-schema set (one autogenerated, one
opted out) the routers list both schemas. -/
theorem c4_witness :
    (⟨["TestOp", "ManualOp"], ["TestOp"], ["TestOp", "ManualOp"], ["TestOp"],
      [(57, "TestOp"), (5, "ManualOp")]⟩ : GenOutput).serDispatch =
      (([schemaOne, schemaManual].filter (fun s => s.hasOpcode)).map Schema.name) ∧
    (⟨["TestOp", "ManualOp"], ["TestOp"], ["TestOp", "ManualOp"], ["TestOp"],
      [(57, "TestOp"), (5, "ManualOp")]⟩ : GenOutput).deserDispatch =
      (([schemaOne, schemaManual].filter (fun s => s.hasOpcode)).map
        (fun s => (s.opcode, s.name))) :=
  c4_routers_cover_hasOpcode [schemaOne, schemaManual] _ rfl

/-- Counterexample to claim C5: opcode 5 is not registered by any schema
with both `hasOpcode` and `autogenSerialization` set, yet the decode
dispatch does not fail with the unhandled-opcode error — the switch case
emitted for the opted-out schema routes to its hand-written handler. -/
theorem c5_counterexample :
    dispatchToAutogenDeserialization [schemaManual] decCtxEmpty 5 [] =
      .manualHandler "ManualOp" ∧
    dispatchToAutogenDeserialization [schemaManual] decCtxEmpty 5 [] ≠
      .unhandled 5 ∧
    (∀ s, s ∈ [schemaManual] → s.hasOpcode = true →
      s.autogenSerialization = true → s.opcode ≠ 5) := by
  refine ⟨rfl, fun hcontra => DeserDispatchOutcome.noConfusion hcontra, ?_⟩
  intro s hmem
  rw [List.mem_singleton] at hmem
  subst hmem
  intro _ hauto
  cases hauto

/-- Amended claim C5: for every opcode not registered by any schema with
`hasOpcode` set (the set the router actually covers), the generated
decode dispatch fails with the unhandled-opcode error carrying the raw
opcode, and never returns a node. -/
theorem c5_unhandled_opcode (schemas : List Schema) (ctx : DecodeCtx)
    (opcode : Nat) (words : List Nat)
    (h : ∀ s ∈ schemas, s.hasOpcode = true → s.opcode ≠ opcode) :
    dispatchToAutogenDeserialization schemas ctx opcode words = .unhandled opcode := by
  unfold dispatchToAutogenDeserialization
  have hfind : (schemas.filter (fun s => s.hasOpcode)).find?
      (fun s => s.opcode == opcode) = none := by
    rw [List.find?_eq_none]
    intro s hs
    have hmem := List.mem_filter.mp hs
    simpa using h s hmem.1 hmem.2
  rw [hfind]

/-- Witness for C5 (amended): opcode 6 is claimed by no schema, and the
dispatch fails with the unhandled-opcode error carrying 6. -/
theorem c5_witness :
    dispatchToAutogenDeserialization [schemaManual] decCtxEmpty 6 [] =
      .unhandled 6 :=
  c5_unhandled_opcode [schemaManual] decCtxEmpty 6 []
    (by
      intro s hmem
      rw [List.mem_singleton] at hmem
      subst hmem
      intro _
      decide)

/-- An unsupported attribute kind makes the serialization-side attribute
check abort. -/
theorem checkSerAttrKinds_error (n : String) (args : List SArg)
    (h : hasUnsupportedAttr args = true) :
    ∃ e, checkSerAttrKinds n args = .error e := by
  induction args with
  | nil => cases h
  | cons a rest ih =>
    cases a with
    | valueRef variadic => exact ih h
    | attr k opt nm =>
      cases k with
      | unsupported d => exact ⟨.serUnsupportedAttr n d, rfl⟩
      | i32Array => exact ih h
      | enumBacked => exact ih h
      | i32 => exact ih h

/-- An unsupported attribute kind or a non-final variadic slot makes the
deserialization-side argument check abort. -/
theorem checkDeserArgs_error (n : String) (args : List SArg)
    (h : hasUnsupportedAttr args = true ∨ hasNonFinalVariadic args = true) :
    ∃ e, checkDeserArgs n args = .error e := by
  induction args with
  | nil => simp [hasUnsupportedAttr, hasNonFinalVariadic] at h
  | cons a rest ih =>
    cases a with
    | valueRef variadic =>
      cases variadic with
      | false =>
        refine ih ?_
        rcases h with h | h
        · exact Or.inl h
        · exact Or.inr h
      | true =>
        cases hrest : rest with
        | nil =>
          subst hrest
          simp [hasUnsupportedAttr, hasNonFinalVariadic] at h
        | cons b bs =>
          refine ⟨.deserVariadicNotLast n, ?_⟩
          simp [checkDeserArgs, hrest]
    | attr k opt nm =>
      cases k with
      | unsupported d => exact ⟨.deserUnsupportedAttr n d, rfl⟩
      | i32Array =>
        refine ih ?_
        simpa [hasUnsupportedAttr, hasNonFinalVariadic] using h
      | enumBacked =>
        refine ih ?_
        simpa [hasUnsupportedAttr, hasNonFinalVariadic] using h
      | i32 =>
        refine ih ?_
        simpa [hasUnsupportedAttr, hasNonFinalVariadic] using h

/-- If processing some `hasOpcode` schema of the set aborts, the whole
generator run aborts. -/
theorem emitSerializationFns_error_of_mem (schemas : List Schema) (s : Schema)
    (hmem : s ∈ schemas) (hop : s.hasOpcode = true)
    (habort : (∃ e, emitSerializationFunction s = .error e) ∨
      (∃ e, emitDeserializationFunction s = .error e)) :
    ∃ e, emitSerializationFns schemas = .error e := by
  induction schemas with
  | nil => cases hmem
  | cons t rest ih =>
    by_cases htop : t.hasOpcode = false
    · have hts : t ≠ s := by
        intro hts
        rw [hts] at htop
        rw [hop] at htop
        cases htop
      have hmem2 : s ∈ rest := by
        cases hmem with
        | head => exact absurd rfl hts
        | tail _ h2 => exact h2
      obtain ⟨e, he⟩ := ih hmem2
      exact ⟨e, by simp [emitSerializationFns, htop, he]⟩
    · cases hse : emitSerializationFunction t with
      | error e => exact ⟨e, by simp [emitSerializationFns, htop, hse]⟩
      | ok b1 =>
        cases hde : emitDeserializationFunction t with
        | error e => exact ⟨e, by simp [emitSerializationFns, htop, hse, hde]⟩
        | ok b2 =>
          have hts : t ≠ s := by
            intro hts
            subst hts
            rcases habort with ⟨e, he⟩ | ⟨e, he⟩
            · rw [he] at hse; cases hse
            · rw [he] at hde; cases hde
          have hmem2 : s ∈ rest := by
            cases hmem with
            | head => exact absurd rfl hts
            | tail _ h2 => exact h2
          obtain ⟨e, he⟩ := ih hmem2
          refine ⟨e, ?_⟩
          simp [emitSerializationFns, htop, hse, hde, he]

/-- Counterexample to claim C8: a schema with result arity 2 whose
`autogenSerialization` is unset goes through generation without any
fatal error — the arity/attribute/variadic checks run only for schemas
being autogenerated. -/
theorem c8_counterexample :
    emitSerializationFns [schemaBadArity] =
      .ok ⟨["BadOp"], [], ["BadOp"], [], [(9, "BadOp")]⟩ ∧
    2 ≤ schemaBadArity.numResults :=
  ⟨rfl, by decide⟩

/-- Amended claim C8: generation aborts with a fatal error (producing no
output) whenever a schema with both `hasOpcode` and
`autogenSerialization` set has result arity greater than 1, an attribute
of an unsupported kind, or a non-final variadic value-reference slot. -/
theorem c8_generation_aborts (schemas : List Schema) (s : Schema)
    (hmem : s ∈ schemas) (hop : s.hasOpcode = true)
    (hauto : s.autogenSerialization = true)
    (hoff : 2 ≤ s.numResults ∨ hasUnsupportedAttr s.args = true ∨
      hasNonFinalVariadic s.args = true) :
    ∃ e, emitSerializationFns schemas = .error e := by
  refine emitSerializationFns_error_of_mem schemas s hmem hop ?_
  rcases hoff with harity | hattr | hvar
  · left
    refine ⟨.serResultArity s.name, ?_⟩
    simp [emitSerializationFunction, hauto, harity]
  · left
    obtain ⟨e, he⟩ := checkSerAttrKinds_error s.name s.args hattr
    by_cases harity : 2 ≤ s.numResults
    · exact ⟨.serResultArity s.name, by simp [emitSerializationFunction, hauto, harity]⟩
    · exact ⟨e, by simp [emitSerializationFunction, hauto, harity, he]⟩
  · right
    obtain ⟨e, he⟩ := checkDeserArgs_error s.name s.args (Or.inr hvar)
    by_cases harity : 2 ≤ s.numResults
    · exact ⟨.deserResultArity s.name, by simp [emitDeserializationFunction, hauto, harity]⟩
    · exact ⟨e, by simp [emitDeserializationFunction, hauto, harity, he]⟩

/-- Witness for C8 (amended): a two-result autogenerated schema makes
the generator run abort. -/
theorem c8_witness : ∃ e, emitSerializationFns [schemaBadAuto] = .error e :=
  c8_generation_aborts [schemaBadAuto] schemaBadAuto (List.mem_singleton.mpr rfl)
    rfl rfl (Or.inl (by decide))

/-! ## Bitwise toolkit -/

/-- A number with a set bit is nonzero. -/
theorem ne_zero_of_testBit {n i : Nat} (h : n.testBit i = true) : n ≠ 0 := by
  intro h0
  rw [h0, Nat.zero_testBit] at h
  cases h

/-- A nonzero number has a set bit. -/
theorem exists_testBit_of_ne_zero {n : Nat} (h : n ≠ 0) :
    ∃ i, n.testBit i = true := by
  by_contra hc
  push_neg at hc
  exact h (Nat.eq_of_testBit_eq fun i => by simp [Bool.eq_false_iff.mpr (hc i)])

/-- For a 32-bit value, the `uint32_t` bit-clearing `val & ~c` behaves as
bitwise difference at every position. -/
theorem testBit_clear32 {v : Nat} (c b : Nat) (hv : v < 2 ^ 32) :
    (clear32 v c).testBit b = (v.testBit b && !(c.testBit b)) := by
  unfold clear32 mask32
  rw [Nat.testBit_and, Nat.testBit_xor, Nat.testBit_two_pow_sub_one]
  by_cases hb : b < 32
  · simp [hb]
  · have hvb : v.testBit b = false := by
      refine Nat.testBit_lt_two_pow (Nat.lt_of_lt_of_le hv ?_)
      exact Nat.pow_le_pow_right (by omega) (by omega)
    simp [hb, hvb]

/-- Bit clearing never increases the value. -/
theorem clear32_le (v c : Nat) : clear32 v c ≤ v := Nat.and_le_left

/-- Bit positions of a left fold of unions. -/
theorem foldl_lor_testBit (l : List Nat) (a b : Nat) :
    (l.foldl (· ||| ·) a).testBit b = (a.testBit b || l.any (fun x => x.testBit b)) := by
  induction l generalizing a with
  | nil => simp
  | cons x xs ih => simp [ih, Nat.testBit_or, Bool.or_assoc]

/-- Bit positions of the union of the declared case values. -/
theorem testBit_caseMask (cs : List EnumCase) (b : Nat) :
    (caseMask cs).testBit b = true ↔ ∃ c ∈ cs, c.value.testBit b = true := by
  unfold caseMask
  rw [foldl_lor_testBit]
  simp only [Nat.zero_testBit, Bool.false_or, List.any_eq_true]
  constructor
  · rintro ⟨x, hx, hxb⟩
    obtain ⟨c, hc, hcv⟩ := List.mem_map.mp hx
    exact ⟨c, (List.mem_filter.mp hc).1, by rw [hcv]; exact hxb⟩
  · rintro ⟨c, hc, hcb⟩
    refine ⟨c.value, ?_, hcb⟩
    exact List.mem_map.mpr
      ⟨c, List.mem_filter.mpr ⟨hc, by simpa using ne_zero_of_testBit hcb⟩, rfl⟩

/-- Bit positions of the union of a case list's values. -/
theorem testBit_orValues (cs : List EnumCase) (b : Nat) :
    (orValues cs).testBit b = cs.any (fun c => c.value.testBit b) := by
  induction cs with
  | nil => simp [orValues]
  | cons c rest ih =>
    show (c.value ||| orValues rest).testBit b = _
    simp [Nat.testBit_or, ih]

/-- A bit set in the working value but in no case value survives the
whole generated `stringify` loop. -/
theorem stringifyFold_preserved (b : Nat) (cs : List EnumCase) :
    ∀ (strs : List (List Char)) (val : Nat), val < 2 ^ 32 →
      val.testBit b = true → (∀ c ∈ cs, c.value.testBit b = false) →
      (cs.foldl stringifyStep (strs, val)).2.testBit b = true := by
  induction cs with
  | nil => intro strs val _ hb _; exact hb
  | cons c rest ih =>
    intro strs val hval32 hb hcs
    rw [List.foldl_cons]
    unfold stringifyStep
    by_cases hcond : c.value ≠ 0 ∧ c.value &&& val ≠ 0
    · rw [if_pos hcond]
      refine ih _ _ (Nat.lt_of_le_of_lt (clear32_le val c.value) hval32) ?_ ?_
      · rw [testBit_clear32 c.value b hval32, hb, hcs c (List.mem_cons_self c rest)]
        rfl
      · intro d hd
        exact hcs d (List.mem_cons_of_mem c hd)
    · rw [if_neg hcond]
      exact ih _ _ hval32 hb (fun d hd => hcs d (List.mem_cons_of_mem c hd))

/-! ## Claim theorems: bit-flag enum codecs -/

/-- Claim C7: the generated symbol-to-string function applied to any
nonzero 32-bit value containing a bit not covered by any declared case
returns the empty-string failure sentinel. -/
theorem c7_unknown_bits (e : BitEnum) (v : Nat) (hv32 : v < 2 ^ 32)
    (hv0 : v ≠ 0) (b : Nat) (hb : v.testBit b = true)
    (hmask : (caseMask e.cases).testBit b = false) :
    stringifyBitEnum e v = [] := by
  have hcases : ∀ c ∈ e.cases, c.value.testBit b = false := by
    intro c hc
    by_contra hcc
    rw [(testBit_caseMask e.cases b).mpr ⟨c, hc, Bool.not_eq_false _ |>.mp hcc⟩] at hmask
    cases hmask
  have hfold := stringifyFold_preserved b e.cases [] v hv32 hb hcases
  unfold stringifyBitEnum
  rw [if_neg hv0]
  simp only []
  rw [if_pos (ne_zero_of_testBit hfold)]

/-- Witness for C7: value 8 has bit 3, which no case of the
Read/Write/Execute enum covers, and stringification fails. -/
theorem c7_witness : stringifyBitEnum enumRWX 8 = [] :=
  c7_unknown_bits enumRWX 8 (by decide) (by decide) 3 (by decide) (by decide)

/-- Claim C9: the generated underlying-integer-to-symbol function maps 0
to the reserved `None` symbol (value 0), fails on any 32-bit value with a
bit outside the union of the declared case values, and otherwise returns
the input value unchanged. -/
theorem c9_underlying_to_sym (e : BitEnum) (v : Nat) (hv32 : v < 2 ^ 32) :
    symbolizeFromUnderlying e 0 = some 0 ∧
    ((∃ b, v.testBit b = true ∧ (caseMask e.cases).testBit b = false) →
      symbolizeFromUnderlying e v = none) ∧
    (clear32 v (caseMask e.cases) = 0 → symbolizeFromUnderlying e v = some v) := by
  refine ⟨rfl, ?_, ?_⟩
  · rintro ⟨b, hb, hm⟩
    have hv0 : v ≠ 0 := ne_zero_of_testBit hb
    have hcl : clear32 v (caseMask e.cases) ≠ 0 := by
      refine ne_zero_of_testBit (i := b) ?_
      rw [testBit_clear32 _ b hv32, hb, hm]
      rfl
    simp [symbolizeFromUnderlying, hv0, hcl]
  · intro h
    by_cases hv0 : v = 0
    · subst hv0; rfl
    · simp [symbolizeFromUnderlying, hv0, h]

/-- Witness for C9: value 6 = Write|Execute round-trips through the
underlying-to-symbol function of the Read/Write/Execute enum. -/
theorem c9_witness :
    symbolizeFromUnderlying enumRWX 0 = some 0 ∧
    ((∃ b, (6 : Nat).testBit b = true ∧ (caseMask enumRWX.cases).testBit b = false) →
      symbolizeFromUnderlying enumRWX 6 = none) ∧
    (clear32 6 (caseMask enumRWX.cases) = 0 →
      symbolizeFromUnderlying enumRWX 6 = some 6) :=
  c9_underlying_to_sym enumRWX 6 (by decide)

/-- When no nonzero-valued case has an empty symbol, the generated
string switch rejects the empty token. -/
theorem lookupCaseValue_nil_token (cs : List EnumCase)
    (hne : ∀ c ∈ cs, c.value ≠ 0 → c.symbol ≠ []) :
    lookupCaseValue cs [] = none := by
  induction cs with
  | nil => rfl
  | cons c rest ih =>
    unfold lookupCaseValue
    rw [if_neg]
    · exact ih fun d hd => hne d (List.mem_cons_of_mem c hd)
    · rintro ⟨hv, hsym⟩
      exact hne c (List.mem_cons_self c rest) hv hsym

/-- The generated string switch only ever produces nonzero case values
(the zero-valued `None` case is skipped at generation time). -/
theorem lookupCaseValue_ne_zero (cs : List EnumCase) (token : List Char)
    (b : Nat) (h : lookupCaseValue cs token = some b) : b ≠ 0 := by
  induction cs with
  | nil => cases h
  | cons c rest ih =>
    unfold lookupCaseValue at h
    by_cases hcond : c.value ≠ 0 ∧ c.symbol = token
    · rw [if_pos hcond] at h
      cases h
      exact hcond.1
    · rw [if_neg hcond] at h
      exact ih h

/-- Bits already accumulated survive the generated token loop. -/
theorem symbolizeFold_mono (cs : List EnumCase) (l : List (List Char)) :
    ∀ (acc r : Nat), symbolizeFold cs acc l = some r →
      ∀ i, acc.testBit i = true → r.testBit i = true := by
  induction l with
  | nil =>
    intro acc r h i hi
    cases h
    exact hi
  | cons t ts ih =>
    intro acc r h i hi
    unfold symbolizeFold at h
    cases hlk : lookupCaseValue cs t with
    | none => rw [hlk] at h; cases h
    | some bit =>
      rw [hlk] at h
      refine ih (acc ||| bit) r h i ?_
      rw [Nat.testBit_or, hi]
      rfl

/-- The string splitter never produces an empty piece list. -/
theorem splitStrGo_ne_nil (sep : List Char) (fuel : Nat) (s : List Char) :
    splitStrGo sep fuel s ≠ [] := by
  match fuel, s with
  | _, [] => simp [splitStrGo]
  | 0, a :: rest => simp [splitStrGo]
  | fuel + 1, a :: rest =>
    simp only [splitStrGo]
    split
    · simp
    · split <;> simp

/-- Claim C10: for a bit-flag enum whose (nonzero-valued) cases all have
nonempty symbols, the generated string-to-symbol function rejects the
empty string (the same sentinel the symbol-to-string function returns on
unknown bits) rather than returning 0; and only the exact text "None"
can parse to the value 0. -/
theorem c10_empty_string (e : BitEnum)
    (hne : ∀ c ∈ e.cases, c.value ≠ 0 → c.symbol ≠ []) :
    symbolizeBitEnum e [] = none ∧
    (∀ s r, symbolizeBitEnum e s = some r → r = 0 → s = sNone) := by
  constructor
  · have hsn : ([] : List Char) ≠ sNone := by decide
    unfold symbolizeBitEnum
    rw [if_neg hsn]
    show symbolizeFold e.cases 0 [[]] = none
    unfold symbolizeFold
    rw [lookupCaseValue_nil_token e.cases hne]
  · intro s r hs hr0
    by_cases hseq : s = sNone
    · exact hseq
    · exfalso
      unfold symbolizeBitEnum at hs
      rw [if_neg hseq] at hs
      cases hsplit : splitStr e.separator s with
      | nil => exact splitStrGo_ne_nil e.separator s.length s hsplit
      | cons t ts =>
        rw [hsplit] at hs
        unfold symbolizeFold at hs
        cases hlk : lookupCaseValue e.cases t with
        | none => rw [hlk] at hs; cases hs
        | some bit =>
          rw [hlk] at hs
          obtain ⟨i, hbit⟩ :=
            exists_testBit_of_ne_zero (lookupCaseValue_ne_zero e.cases t bit hlk)
          have hri : r.testBit i = true := by
            refine symbolizeFold_mono e.cases ts (0 ||| bit) r hs i ?_
            rw [Nat.zero_or]
            exact hbit
          rw [hr0, Nat.zero_testBit] at hri
          cases hri

/-- Witness for C10: the Read/Write/Execute enum rejects the empty
string. -/
theorem c10_witness : symbolizeBitEnum enumRWX [] = none :=
  (c10_empty_string enumRWX (by decide)).1

/-! ## Split/join inversion for single-character separators -/

/-- Unfolding of the splitter on a nonempty string with fuel. -/
theorem splitStrGo_cons (sep : List Char) (fuel : Nat) (a : Char) (rest : List Char) :
    splitStrGo sep (fuel + 1) (a :: rest) =
      if sep ≠ [] ∧ sep.isPrefixOf (a :: rest) then
        [] :: splitStrGo sep fuel (rest.drop (sep.length - 1))
      else
        match splitStrGo sep fuel rest with
        | [] => [[a]]
        | t :: ts => (a :: t) :: ts := rfl

/-- The splitter's result does not depend on the fuel, as long as the
fuel covers the string length. -/
theorem splitStrGo_fuel (sep : List Char) :
    ∀ (fuel fuel2 : Nat) (s : List Char), s.length ≤ fuel → s.length ≤ fuel2 →
      splitStrGo sep fuel s = splitStrGo sep fuel2 s := by
  intro fuel
  induction fuel with
  | zero =>
    intro fuel2 s hs _
    have hnil : s = [] := List.eq_nil_of_length_eq_zero (Nat.le_zero.mp hs)
    subst hnil
    cases fuel2 <;> rfl
  | succ f ih =>
    intro fuel2 s hs hs2
    cases s with
    | nil => cases fuel2 <;> rfl
    | cons a rest =>
      cases fuel2 with
      | zero => simp at hs2
      | succ f2 =>
        rw [splitStrGo_cons, splitStrGo_cons]
        by_cases hcond : sep ≠ [] ∧ sep.isPrefixOf (a :: rest)
        · rw [if_pos hcond, if_pos hcond,
            ih f2 (rest.drop (sep.length - 1)) (by simp at hs ⊢; omega)
              (by simp at hs2 ⊢; omega)]
        · rw [if_neg hcond, if_neg hcond,
            ih f2 rest (by simp at hs ⊢; omega) (by simp at hs2 ⊢; omega)]

/-- A string not containing the separator character is one piece. -/
theorem splitStr_single (c : Char) (p : List Char) (hc : c ∉ p) :
    splitStr [c] p = [p] := by
  induction p with
  | nil => rfl
  | cons a rest ih =>
    have hc2 : c ∉ rest := fun h => hc (List.mem_cons_of_mem a h)
    have hca : c ≠ a := fun h => hc (h ▸ List.mem_cons_self a rest)
    show splitStrGo [c] (rest.length + 1) (a :: rest) = [a :: rest]
    rw [splitStrGo_cons, if_neg]
    · rw [show splitStrGo [c] rest.length rest = [rest] from ih hc2]
    · rintro ⟨-, hpre⟩
      simp [List.isPrefixOf] at hpre
      exact hca hpre

/-- Splitting a string that starts with a separator-free piece followed
by the separator peels off that piece. -/
theorem splitStr_break (c : Char) (p t : List Char) (hc : c ∉ p) :
    splitStr [c] (p ++ c :: t) = p :: splitStr [c] t := by
  induction p with
  | nil =>
    show splitStrGo [c] (t.length + 1) (c :: t) = [] :: splitStr [c] t
    rw [splitStrGo_cons, if_pos ⟨by simp, by simp [List.isPrefixOf]⟩]
    simp [splitStr]
  | cons a rest ih =>
    have hc2 : c ∉ rest := fun h => hc (List.mem_cons_of_mem a h)
    have hca : c ≠ a := fun h => hc (h ▸ List.mem_cons_self a rest)
    show splitStrGo [c] ((rest ++ c :: t).length + 1) (a :: (rest ++ c :: t)) = _
    rw [splitStrGo_cons, if_neg]
    · rw [show splitStrGo [c] (rest ++ c :: t).length (rest ++ c :: t) =
          rest :: splitStr [c] t from ih hc2]
    · rintro ⟨-, hpre⟩
      simp [List.isPrefixOf] at hpre
      exact hca hpre

/-- Splitting inverts joining for a single-character separator that
occurs in no piece. -/
theorem splitStr_joinSep (c : Char) :
    ∀ (parts : List (List Char)), parts ≠ [] → (∀ p ∈ parts, c ∉ p) →
      splitStr [c] (joinSep [c] parts) = parts := by
  intro parts
  induction parts with
  | nil => intro h _; exact absurd rfl h
  | cons p rest ih =>
    intro _ hps
    cases rest with
    | nil => exact splitStr_single c p (hps p (List.mem_cons_self p []))
    | cons q rest2 =>
      have hjoin : joinSep [c] (p :: q :: rest2) = p ++ c :: joinSep [c] (q :: rest2) := by
        show p ++ [c] ++ joinSep [c] (q :: rest2) = _
        simp
      rw [hjoin, splitStr_break c p _ (hps p (List.mem_cons_self p (q :: rest2))),
        ih (by simp) (fun x hx => hps x (List.mem_cons_of_mem p hx))]

/-! ## Characterization of the generated `stringify` loop -/

/-- Membership in the pushed-case list. -/
theorem mem_pushedCases {cs : List EnumCase} {v : Nat} {k : EnumCase} :
    k ∈ pushedCases cs v ↔ k ∈ cs ∧ k.value ≠ 0 ∧ k.value &&& v ≠ 0 := by
  simp [pushedCases, List.mem_filter]

/-- The generated `stringify` loop, started on a 32-bit working value
whose bits are those of `v` outside `U`, pushes exactly the symbols of
the nonzero cases intersecting `v` (in declaration order) — provided the
remaining cases are disjoint from `U` and pairwise disjoint — and ends
with the working value's bits outside the pushed cases' union. -/
theorem stringifyFold_spec (v : Nat) :
    ∀ (cs : List EnumCase) (strs : List (List Char)) (val U : Nat),
      val < 2 ^ 32 →
      (∀ b, val.testBit b = (v.testBit b && !(U.testBit b))) →
      (∀ k ∈ cs, k.value &&& U = 0) →
      cs.Pairwise (fun a d => a.value &&& d.value = 0) →
      (cs.foldl stringifyStep (strs, val)).1 =
        strs ++ (pushedCases cs v).map EnumCase.symbol ∧
      ∀ b, (cs.foldl stringifyStep (strs, val)).2.testBit b =
        (val.testBit b && !((orValues (pushedCases cs v)).testBit b)) := by
  intro cs
  induction cs with
  | nil =>
    intro strs val U _ _ _ _
    exact ⟨by simp [pushedCases], fun b => by simp [pushedCases, orValues]⟩
  | cons k rest ih =>
    intro strs val U hval32 hval hU hpair
    have hkU : k.value &&& U = 0 := hU k (List.mem_cons_self k rest)
    have hcv : k.value &&& val = k.value &&& v := by
      refine Nat.eq_of_testBit_eq fun b => ?_
      rw [Nat.testBit_and, Nat.testBit_and, hval b]
      cases hkb : k.value.testBit b
      · rfl
      · have hUb : U.testBit b = false := by
          have hbits := congrArg (fun n => n.testBit b) hkU
          simpa [Nat.testBit_and, hkb] using hbits
        rw [hUb]
        simp
    have hpairk := List.pairwise_cons.mp hpair
    by_cases hpred : k.value ≠ 0 ∧ k.value &&& v ≠ 0
    · have hstep : stringifyStep (strs, val) k = (strs ++ [k.symbol], clear32 val k.value) := by
        unfold stringifyStep
        rw [if_pos ⟨hpred.1, by rw [hcv]; exact hpred.2⟩]
      have hpush : pushedCases (k :: rest) v = k :: pushedCases rest v := by
        unfold pushedCases
        rw [List.filter_cons_of_pos (by simpa using hpred)]
      have hval2 : ∀ b, (clear32 val k.value).testBit b =
          (v.testBit b && !((U ||| k.value).testBit b)) := by
        intro b
        rw [testBit_clear32 _ _ hval32, hval b, Nat.testBit_or, Bool.not_or,
          Bool.and_assoc]
      have hU2 : ∀ d ∈ rest, d.value &&& (U ||| k.value) = 0 := by
        intro d hd
        refine Nat.eq_of_testBit_eq fun b => ?_
        rw [Nat.testBit_and, Nat.testBit_or, Nat.zero_testBit]
        have h1 := congrArg (fun n => n.testBit b) (hU d (List.mem_cons_of_mem k hd))
        have h2 := congrArg (fun n => n.testBit b) (hpairk.1 d hd)
        simp only [Nat.testBit_and, Nat.zero_testBit] at h1 h2
        cases hdb : d.value.testBit b
        · rfl
        · rw [hdb] at h1
          rw [hdb] at h2
          simp at h1 h2
          simp [h1, h2]
      obtain ⟨ih1, ih2⟩ := ih (strs ++ [k.symbol]) (clear32 val k.value) (U ||| k.value)
        (Nat.lt_of_le_of_lt (clear32_le val k.value) hval32) hval2 hU2 hpairk.2
      constructor
      · rw [List.foldl_cons, hstep, ih1, hpush]
        simp
      · intro b
        rw [List.foldl_cons, hstep, ih2 b, hpush, testBit_clear32 _ _ hval32]
        show ((val.testBit b && !(k.value.testBit b)) &&
            !((orValues (pushedCases rest v)).testBit b)) =
          (val.testBit b && !((k.value ||| orValues (pushedCases rest v)).testBit b))
        rw [Nat.testBit_or, Bool.not_or, Bool.and_assoc]
    · have hstep : stringifyStep (strs, val) k = (strs, val) := by
        unfold stringifyStep
        rw [if_neg]
        intro hcontra
        exact hpred ⟨hcontra.1, by rw [← hcv]; exact hcontra.2⟩
      have hpush : pushedCases (k :: rest) v = pushedCases rest v := by
        unfold pushedCases
        rw [List.filter_cons_of_neg (by simpa using hpred)]
      obtain ⟨ih1, ih2⟩ := ih strs val U hval32 hval
        (fun d hd => hU d (List.mem_cons_of_mem k hd)) hpairk.2
      rw [List.foldl_cons, hstep, hpush]
      exact ⟨ih1, ih2⟩

/-- The generated string switch finds a declared nonzero case by its
symbol, provided equal symbols carry equal values. -/
theorem lookupCaseValue_found (cs : List EnumCase) (k : EnumCase)
    (hmem : k ∈ cs) (hk0 : k.value ≠ 0)
    (hinj : ∀ a ∈ cs, ∀ d ∈ cs, a.value ≠ 0 → d.value ≠ 0 →
      a.symbol = d.symbol → a.value = d.value) :
    lookupCaseValue cs k.symbol = some k.value := by
  induction cs with
  | nil => cases hmem
  | cons c rest ih =>
    unfold lookupCaseValue
    by_cases hcond : c.value ≠ 0 ∧ c.symbol = k.symbol
    · rw [if_pos hcond,
        hinj c (List.mem_cons_self c rest) k hmem hcond.1 hk0 hcond.2]
    · rw [if_neg hcond]
      cases hmem with
      | head => exact absurd ⟨hk0, rfl⟩ hcond
      | tail _ hmem2 =>
        exact ih hmem2 (fun a ha d hd => hinj a (List.mem_cons_of_mem c ha) d
          (List.mem_cons_of_mem c hd))

/-- The generated token loop, fed tokens that are the symbols of a case
list the switch resolves, accumulates exactly the union of their
values. -/
theorem symbolizeFold_map (cs : List EnumCase) :
    ∀ (pushed : List EnumCase) (acc : Nat),
      (∀ k ∈ pushed, lookupCaseValue cs k.symbol = some k.value) →
      symbolizeFold cs acc (pushed.map EnumCase.symbol) =
        some (acc ||| orValues pushed) := by
  intro pushed
  induction pushed with
  | nil =>
    intro acc _
    show some acc = some (acc ||| 0)
    rw [Nat.or_zero]
  | cons k rest ih =>
    intro acc hlk
    show symbolizeFold cs acc (k.symbol :: rest.map EnumCase.symbol) = _
    unfold symbolizeFold
    rw [hlk k (List.mem_cons_self k rest)]
    show symbolizeFold cs (acc ||| k.value) (rest.map EnumCase.symbol) = _
    rw [ih (acc ||| k.value) (fun d hd => hlk d (List.mem_cons_of_mem k hd))]
    show some (acc ||| k.value ||| orValues rest) =
      some (acc ||| (k.value ||| orValues rest))
    rw [Nat.lor_assoc]

/-! ## Claim theorems: bit-flag round trip -/

/-- Counterexample to claim C6: in the enum with the single case A = 3,
the value 1 has all its bits covered by declared cases, yet the round
trip returns 3, not 1 — the generated `stringify` clears all of a case's
bits as soon as one of them intersects the value. -/
theorem c6_counterexample :
    symbolizeBitEnum enumOverlap (stringifyBitEnum enumOverlap 1) = some 3 ∧
    symbolizeBitEnum enumOverlap (stringifyBitEnum enumOverlap 1) ≠ some 1 ∧
    clear32 1 (caseMask enumOverlap.cases) = 0 := by
  refine ⟨?_, ?_, ?_⟩ <;> decide

/-- Amended claim C6: for a bit-flag enum with a single-character
separator that occurs neither in "None" nor in any case symbol, whose
nonzero cases have distinct non-"None" symbols (equal symbols would have
to carry equal values) and pairwise bit-disjoint values, the string
round trip `fromName (toName v) = v` holds for every 32-bit value `v`
that is a union of declared case values (each case's value lies either
fully inside or fully outside `v`, and every bit of `v` is covered);
moreover `toName 0 = "None"` and `fromName "None" = 0`. -/
theorem c6_bitflag_roundtrip (e : BitEnum) (csep : Char) (v : Nat)
    (hsep : e.separator = [csep])
    (hsepn : csep ∉ sNone)
    (hv32 : v < 2 ^ 32)
    (hdisj : e.cases.Pairwise (fun a d => a.value &&& d.value = 0))
    (hsym_c : ∀ k ∈ e.cases, k.value ≠ 0 → csep ∉ k.symbol)
    (hsym_none : ∀ k ∈ e.cases, k.value ≠ 0 → k.symbol ≠ sNone)
    (hinj : ∀ a ∈ e.cases, ∀ d ∈ e.cases, a.value ≠ 0 → d.value ≠ 0 →
      a.symbol = d.symbol → a.value = d.value)
    (hshape : ∀ k ∈ e.cases, k.value &&& v = 0 ∨ k.value &&& v = k.value)
    (hcov : clear32 v (caseMask e.cases) = 0) :
    symbolizeBitEnum e (stringifyBitEnum e v) = some v ∧
    stringifyBitEnum e 0 = sNone ∧
    symbolizeBitEnum e sNone = some 0 := by
  refine ⟨?_, rfl, rfl⟩
  by_cases hv0 : v = 0
  · subst hv0
    rfl
  · obtain ⟨hfold1, hfold2⟩ := stringifyFold_spec v e.cases [] v 0 hv32
      (fun b => by simp) (fun k _ => Nat.and_zero k.value) hdisj
    have haux1 : ∀ b, (orValues (pushedCases e.cases v)).testBit b = true →
        v.testBit b = true := by
      intro b hb
      rw [testBit_orValues] at hb
      obtain ⟨k, hk, hkb⟩ := List.any_eq_true.mp hb
      obtain ⟨hkcs, hk0, hkv⟩ := mem_pushedCases.mp hk
      cases hshape k hkcs with
      | inl h0 => exact absurd h0 hkv
      | inr hsub =>
        have hbits := congrArg (fun n => n.testBit b) hsub
        simpa [Nat.testBit_and, hkb] using hbits.symm
    have haux2 : ∀ b, v.testBit b = true →
        (orValues (pushedCases e.cases v)).testBit b = true := by
      intro b hb
      have hcl : (v.testBit b && !((caseMask e.cases).testBit b)) = false := by
        rw [← testBit_clear32 _ _ hv32, hcov, Nat.zero_testBit]
      rw [hb, Bool.true_and] at hcl
      have hmaskb : (caseMask e.cases).testBit b = true := by
        cases hmb : (caseMask e.cases).testBit b
        · rw [hmb] at hcl; cases hcl
        · rfl
      obtain ⟨k, hkcs, hkb⟩ := (testBit_caseMask e.cases b).mp hmaskb
      have hk0 : k.value ≠ 0 := ne_zero_of_testBit hkb
      have hkv : k.value &&& v ≠ 0 := by
        refine ne_zero_of_testBit (i := b) ?_
        rw [Nat.testBit_and, hkb, hb]
        rfl
      rw [testBit_orValues]
      exact List.any_eq_true.mpr ⟨k, mem_pushedCases.mpr ⟨hkcs, hk0, hkv⟩, hkb⟩
    have horpush : orValues (pushedCases e.cases v) = v := by
      refine Nat.eq_of_testBit_eq fun b => ?_
      cases hvb : v.testBit b
      · cases horb : (orValues (pushedCases e.cases v)).testBit b
        · rfl
        · rw [haux1 b horb] at hvb; cases hvb
      · exact haux2 b hvb
    have hfinal : (e.cases.foldl stringifyStep ([], v)).2 = 0 := by
      refine Nat.eq_of_testBit_eq fun b => ?_
      rw [hfold2 b, horpush, Nat.zero_testBit, Bool.and_not_self]
    have hpne : pushedCases e.cases v ≠ [] := by
      intro h
      rw [h] at horpush
      exact hv0 horpush.symm
    have hstring : stringifyBitEnum e v =
        joinSep [csep] ((pushedCases e.cases v).map EnumCase.symbol) := by
      unfold stringifyBitEnum
      rw [if_neg hv0]
      show (if (e.cases.foldl stringifyStep ([], v)).2 ≠ 0 then []
        else joinSep e.separator (e.cases.foldl stringifyStep ([], v)).1) = _
      rw [hfinal, hfold1, hsep]
      simp
    have hparts_mem : ∀ p ∈ (pushedCases e.cases v).map EnumCase.symbol, csep ∉ p := by
      intro p hp
      obtain ⟨k, hk, hkeq⟩ := List.mem_map.mp hp
      obtain ⟨hkcs, hk0, -⟩ := mem_pushedCases.mp hk
      exact hkeq ▸ hsym_c k hkcs hk0
    have hparts_ne : (pushedCases e.cases v).map EnumCase.symbol ≠ [] := by
      intro h
      exact hpne (List.map_eq_nil_iff.mp h)
    have hjoin_ne : joinSep [csep] ((pushedCases e.cases v).map EnumCase.symbol) ≠ sNone := by
      cases hplist : (pushedCases e.cases v).map EnumCase.symbol with
      | nil => exact absurd hplist hparts_ne
      | cons p rest2 =>
        cases rest2 with
        | nil =>
          show p ≠ sNone
          have hpmem : p ∈ (pushedCases e.cases v).map EnumCase.symbol := by
            rw [hplist]
            exact List.mem_cons_self p []
          obtain ⟨k, hk, hkeq⟩ := List.mem_map.mp hpmem
          obtain ⟨hkcs, hk0, -⟩ := mem_pushedCases.mp hk
          exact hkeq ▸ hsym_none k hkcs hk0
        | cons q rest3 =>
          intro heq
          have hmem : csep ∈ joinSep [csep] (p :: q :: rest3) := by
            show csep ∈ p ++ [csep] ++ joinSep [csep] (q :: rest3)
            simp
          rw [heq] at hmem
          exact hsepn hmem
    have hlookup : ∀ k ∈ pushedCases e.cases v,
        lookupCaseValue e.cases k.symbol = some k.value := by
      intro k hk
      obtain ⟨hkcs, hk0, -⟩ := mem_pushedCases.mp hk
      exact lookupCaseValue_found e.cases k hkcs hk0 hinj
    rw [hstring]
    unfold symbolizeBitEnum
    rw [if_neg hjoin_ne, hsep, splitStr_joinSep csep _ hparts_ne hparts_mem,
      symbolizeFold_map e.cases (pushedCases e.cases v) 0 hlookup, Nat.zero_or,
      horpush]

/-- Witness for C6 (amended): the Read/Write/Execute enum round-trips
the value 5 = Read|Execute, maps 0 to "None", and parses "None" to 0. -/
theorem c6_witness :
    symbolizeBitEnum enumRWX (stringifyBitEnum enumRWX 5) = some 5 ∧
    stringifyBitEnum enumRWX 0 = sNone ∧
    symbolizeBitEnum enumRWX sNone = some 0 :=
  c6_bitflag_roundtrip enumRWX '|' 5 rfl (by decide) (by decide) (by decide)
    (by decide) (by decide) (by decide) (by decide) (by decide)

end SPIRVGen
